import Mathlib

/-!
Verification of the `requestpq` priority-queue library.

The heap layer (`heap/array_min_heap.go`) is a 1-indexed array-backed binary
min-heap with a sentinel element at index 0.  It is embedded generically over
the element type `α` and the boolean comparator `lt` (the Go `Less` method is
the single ordering seam).  Go slices become `List α`; machine integers that
only ever hold small non-negative values (lengths, indices) become `Nat`; the
`uint64` sequence counter becomes a `Nat` together with the explicit
`math.MaxUint64` equality test that the Go code performs before the counter
could ever wrap, so no modular arithmetic is observable.  Recursive sift
functions take an explicit fuel argument (the Go functions recurse on index
arithmetic); `h.length` resp. `j` fuel is always sufficient, which the lemmas
below establish along the way.

The queue layer (`req_pq.go`) stores items carrying a `uint64` sequence
number (`Order`) assigned under a lock; the lock itself is modelled away
(every operation is atomic in this embedding).  `req_pq.go` references an
`Order` field, an `Order`-based tie-break and a `ReOrder` renumbering method
of the heap package that are absent from the sources provided; those three
definitions are modelled from the spec and marked as such.
-/

set_option linter.unusedVariables false

namespace RequestPq

/-! ### Generic array heap, from `heap/array_min_heap.go` -/

/-- Go `func parent(k int) int { return k / 2 }`. -/
def parent (k : Nat) : Nat := k / 2

/-- Go `func leftChild(k int) int { return k * 2 }`. -/
def leftChild (k : Nat) : Nat := k * 2

/-- Go `func rightChild(k int) int { return k*2 + 1 }`. -/
def rightChild (k : Nat) : Nat := k * 2 + 1

variable {α : Type}

/-- Go `Len`: heap size is the array size minus the sentinel. -/
def Len (h : List α) : Nat := h.length - 1

/-- Go `Empty`: the heap (not the underlying array) is empty. -/
def Empty (h : List α) : Bool := Len h == 0

/-- Go `Less(i, j)`: the comparator applied to the elements at indices `i`
and `j`.  All call sites are in range; out-of-range reads (which would panic
in Go) fall through to `false`. -/
def Less (lt : α → α → Bool) (h : List α) (i j : Nat) : Bool :=
  match h[i]?, h[j]? with
  | some a, some b => lt a b
  | _, _ => false

/-- Go `Swap(i, j)`: exchange two array slots.  All call sites are in range;
out-of-range accesses (which would panic in Go) leave the list unchanged. -/
def Swap (h : List α) (i j : Nat) : List α :=
  match h[i]?, h[j]? with
  | some a, some b => (h.set i b).set j a
  | _, _ => h

/-- Go `up(j)`: sift the element at index `j` upward while it is smaller than
its parent.  `fuel` bounds the recursion depth; since `j` at least halves on
every recursive call, `fuel = j` (as supplied by `up`) always suffices. -/
def upFuel (lt : α → α → Bool) : Nat → List α → Nat → List α
  | 0, h, _ => h
  | fuel + 1, h, j =>
    if 1 < j ∧ Less lt h j (parent j) = true then
      upFuel lt fuel (Swap h (parent j) j) (parent j)
    else h

/-- Go `up(j)` entry point. -/
def up (lt : α → α → Bool) (h : List α) (j : Nat) : List α := upFuel lt j h j

/-- Go `Push`: append the new element and sift it up from the last index. -/
def Push (lt : α → α → Bool) (h : List α) (x : α) : List α :=
  up lt (h ++ [x]) (Len (h ++ [x]))

/-- Go `down(j)`: sift the element at index `j` downward, swapping with the
smaller child while that child is smaller.  `fuel` bounds the recursion
depth; since `j` strictly increases and stays at most `Len h` on every
recursive call, `fuel = h.length` (as supplied by `down`) always suffices. -/
def downFuel (lt : α → α → Bool) : Nat → List α → Nat → List α
  | 0, h, _ => h
  | fuel + 1, h, j =>
    let n := Len h
    let l := leftChild j
    let r := rightChild j
    if l > n then h
    else
      let sc := if r > n then l else if Less lt h l r = true then l else r
      if sc ≤ n ∧ Less lt h sc j = true then downFuel lt fuel (Swap h j sc) sc
      else h

/-- Go `down(j)` entry point. -/
def down (lt : α → α → Bool) (h : List α) (j : Nat) : List α :=
  downFuel lt h.length h j

/-- Go `Pop`: `nil` on an empty heap; otherwise swap the root with the last
slot, return the removed last element (the original root) and sift the new
root down.  The `old[n] = nil` store in Go only clears the slot that the
`old[0:n]` reslice drops, so it has no counterpart here. -/
def Pop (lt : α → α → Bool) (h : List α) : Option α × List α :=
  if Empty h = true then (none, h)
  else
    let h1 := Swap h 1 (Len h)
    (h1.getLast?, down lt h1.dropLast 1)

/-- Repeatedly `Pop` and collect the returned items, stopping on the first
empty signal.  `fuel = Len h` pops every element (each successful pop
shrinks the heap by exactly one). -/
def drainFuel (lt : α → α → Bool) : Nat → List α → List α
  | 0, _ => []
  | fuel + 1, h =>
    match Pop lt h with
    | (none, _) => []
    | (some a, h2) => a :: drainFuel lt fuel h2

/-- The complete dequeue order of a heap: pop until empty. -/
def drainItems (lt : α → α → Bool) (h : List α) : List α :=
  drainFuel lt (Len h) h

/-- The heap-order invariant checked by `verify` in the Go tests: no element
at a non-root index `i` compares strictly less than its parent. -/
def heapInv (lt : α → α → Bool) (h : List α) : Prop :=
  ∀ i, i < h.length → 2 ≤ i → Less lt h i (parent i) = false

instance heapInvDecidable (lt : α → α → Bool) (h : List α) :
    Decidable (heapInv lt h) := by
  unfold heapInv; infer_instance

/-- The non-strict order induced by the comparator: `a` precedes-or-ties `b`
exactly when `b` is not strictly less than `a` (Go `!Less(j, i)`). -/
def HeapLe (lt : α → α → Bool) (a b : α) : Prop := lt b a = false

/-! ### Invariants used by the sift proofs -/

/-- State of the array during `up(j)`: every parent-child edge holds except
possibly the one above `j`, and (when `j` is not the root) `j`'s own parent
already precedes-or-ties both children of `j`. -/
def UpInv (lt : α → α → Bool) (h : List α) (j : Nat) : Prop :=
  (∀ i, i < h.length → 2 ≤ i → i ≠ j → Less lt h i (parent i) = false) ∧
  (2 ≤ j → ∀ c, c < h.length → parent c = j → Less lt h c (parent j) = false)

/-- State of the array during `down(j)`: every parent-child edge holds except
possibly the ones from `j` down to its children, and (when `j` is not the
root) `j`'s parent already precedes-or-ties both children of `j`. -/
def DownInv (lt : α → α → Bool) (h : List α) (j : Nat) : Prop :=
  (∀ i, i < h.length → 2 ≤ i → parent i ≠ j → Less lt h i (parent i) = false) ∧
  (2 ≤ j → ∀ c, c < h.length → parent c = j → Less lt h c (parent j) = false)

/-! ### The two item types and their comparators

`heap/array_min_heap.go` as provided stores a wall-clock creation time and
breaks priority ties by `CreatedAt.Before`; `req_pq.go` references a variant
of the same heap whose items instead carry the `uint64` sequence number
`Order` (spec §4.1/§9: the same comparator seam with the sequence tie-break).
`π` is the type of the non-nil payload values a caller may store; a Go
`interface{}` value is `Option π` (`none` = Go `nil`).  `time.Time` is
modelled as a `Nat` tick with `Before` as `<`; the `int` priority is `Int`
(it is only ever compared, never overflowed). -/

/-- Go `heap.Item` as in `heap/array_min_heap.go` (timestamp tie-break). -/
structure Item (π : Type) where
  Priority : Int
  Data : Option π
  CreatedAt : Nat
deriving DecidableEq

/-- Go `Less` of `heap/array_min_heap.go`, element level: equal priorities
compare by creation time (`Before`), otherwise by priority. -/
def lessT {π : Type} (a b : Item π) : Bool :=
  if a.Priority == b.Priority then decide (a.CreatedAt < b.CreatedAt)
  else decide (a.Priority < b.Priority)

/-- Go `NewHeap`: the array starts with the dummy sentinel item (priority 0,
nil data, zero time). -/
def NewHeapT (π : Type) : List (Item π) := [{ Priority := 0, Data := none, CreatedAt := 0 }]

/-- The `heap.Item` variant `req_pq.go` constructs: `Priority`, `Data` and
the sequence number `Order` (a `uint64`).  Modelled from the spec: the field
is referenced by `req_pq.go` (`Order: q.count`) but its declaration is not
among the provided heap sources. -/
structure OItem (π : Type) where
  Priority : Int
  Data : Option π
  Order : Nat
deriving DecidableEq

/-- Modelled from the spec: the sequence-number tie-break comparator of the
heap variant used by `req_pq.go` (spec §4.1: "priority ascending; on a
priority tie, compare tie-break field ascending", the tie-break field being
the monotonically increasing sequence number of §3).  Structurally it
mirrors `Less` of `heap/array_min_heap.go` with `Order` in place of
`CreatedAt.Before`. -/
def lessO {π : Type} (a b : OItem π) : Bool :=
  if a.Priority == b.Priority then decide (a.Order < b.Order)
  else decide (a.Priority < b.Priority)

/-- Go `NewHeap` for the sequence-number item variant (zero-valued `Order`). -/
def NewHeapO (π : Type) : List (OItem π) := [{ Priority := 0, Data := none, Order := 0 }]

/-! ### The thread-safe queue, from `req_pq.go`

The mutex only serialises the operations; in this sequential embedding every
operation is a whole-state function, so the lock has no counterpart. -/

/-- Go `Queue`: one heap plus the `uint64` sequence counter.  The counter is
a `Nat`: the code tests `count == math.MaxUint64` before every increment, so
on every reachable state the counter stays within `uint64` range and the
increment never wraps. -/
structure Queue (π : Type) where
  heap : List (OItem π)
  count : Nat

/-- Go `math.MaxUint64`. -/
def maxUint64 : Nat := 2 ^ 64 - 1

/-- Go `NewQueue`: empty heap (sentinel only), zero counter. -/
def NewQueue (π : Type) : Queue π :=
  { heap := NewHeapO π, count := 0 }

/-- Modelled from the spec: the renumbering pass of `ReOrder` "reassigns
sequence numbers 0..n-1 in dequeue order" (spec §4.2); `k` is the next
number to hand out. -/
def renumber {π : Type} : Nat → List (OItem π) → List (OItem π)
  | _, [] => []
  | k, a :: t => { a with Order := k } :: renumber (k + 1) t

/-- Modelled from the spec: `heap.ItemHeap.ReOrder`, called by `Enqueue` when
the counter is about to wrap but absent from the provided heap sources.  Per
spec §4.2 it "extracts the current heap order and reassigns sequence numbers
0..n-1 in dequeue order before continuing"; it returns the renewed counter
value (the item count `n`, so that the next assigned number `n + 1` exceeds
every reassigned one) together with the renumbered heap, rebuilt by pushes. -/
def ReOrder {π : Type} (h : List (OItem π)) : Nat × List (OItem π) :=
  let xs := drainItems lessO h
  (xs.length, (renumber 0 xs).foldl (Push lessO) (NewHeapO π))

/-- Go `Enqueue`: renumber first if the counter reached `math.MaxUint64`,
then increment the counter and push an item carrying it as `Order`. -/
def Enqueue {π : Type} (q : Queue π) (data : Option π) (priority : Int) : Queue π :=
  let q1 := if q.count = maxUint64
    then { heap := (ReOrder q.heap).2, count := (ReOrder q.heap).1 }
    else q
  let c := q1.count + 1
  { heap := Push lessO q1.heap { Priority := priority, Data := data, Order := c },
    count := c }

/-- The error value `Dequeue` returns on an empty queue
(Go `errors.New` with the message `pop an empty queue`). -/
inductive DeqError : Type where
  | popEmptyQueue : DeqError
deriving DecidableEq

/-- Go `Dequeue`: pop; `(nil, error)` when the heap was empty, otherwise the
popped item's payload.  The Go pair `(interface{}, error)` becomes
`Option π × Option DeqError`; the mutated queue is returned explicitly. -/
def Dequeue {π : Type} (q : Queue π) : (Option π × Option DeqError) × Queue π :=
  match Pop lessO q.heap with
  | (none, h2) => ((none, some DeqError.popEmptyQueue), { q with heap := h2 })
  | (some item, h2) => ((item.Data, none), { q with heap := h2 })

/-- Go `Queue.Len`: the heap's size. -/
def Queue.Len {π : Type} (q : Queue π) : Nat := RequestPq.Len q.heap

/-- Go `Queue.Empty`: whether the heap is empty. -/
def Queue.Empty {π : Type} (q : Queue π) : Bool := RequestPq.Empty q.heap

/-! ### Operation traces and drains, for the trace-quantified claims -/

/-- A heap-layer operation: `Push` of a given item, or `Pop`. -/
inductive HOp (π : Type) : Type where
  | push : Item π → HOp π
  | pop : HOp π

/-- One heap-layer step on the timestamp heap. -/
def stepH {π : Type} (h : List (Item π)) : HOp π → List (Item π)
  | HOp.push x => Push lessT h x
  | HOp.pop => (Pop lessT h).2

/-- The timestamp heap after a sequence of interleaved pushes and pops
starting from `NewHeap`. -/
def runH {π : Type} (ops : List (HOp π)) : List (Item π) :=
  ops.foldl stepH (NewHeapT π)

/-- A queue-layer operation: `Enqueue` of a payload with a priority, or
`Dequeue`. -/
inductive QOp (π : Type) : Type where
  | enq : Option π → Int → QOp π
  | deq : QOp π

/-- One queue-layer step, also counting enqueues and successful dequeues. -/
def stepQ {π : Type} (acc : Queue π × Nat × Nat) (op : QOp π) : Queue π × Nat × Nat :=
  match op with
  | QOp.enq d p => (Enqueue acc.1 d p, acc.2.1 + 1, acc.2.2)
  | QOp.deq =>
    let r := Dequeue acc.1
    (r.2, acc.2.1, acc.2.2 + (if r.1.2 = none then 1 else 0))

/-- The queue, the enqueue count `E` and the successful-dequeue count `D`
after a sequence of interleaved operations on a queue from `NewQueue`. -/
def runQ {π : Type} (ops : List (QOp π)) : Queue π × Nat × Nat :=
  ops.foldl stepQ (NewQueue π, 0, 0)

/-- Enqueue a list of (payload, priority) pairs in order. -/
def enqueueAll {π : Type} (q : Queue π) (xs : List (Option π × Int)) : Queue π :=
  xs.foldl (fun q x => Enqueue q x.1 x.2) q

/-- Drain by repeated `Dequeue`, collecting the returned payloads and
stopping at the first `Dequeue` error.  `fuel = q.Len` empties the queue. -/
def dequeueDrain {π : Type} : Nat → Queue π → List (Option π)
  | 0, _ => []
  | fuel + 1, q =>
    match Dequeue q with
    | ((d, none), q2) => d :: dequeueDrain fuel q2
    | ((_, some _), _) => []

/-- The items that a run of `Enqueue` calls starting at counter value `c`
constructs: the k-th carries sequence number `c + k`. -/
def mkItems {π : Type} (P : Int) : Nat → List (Option π) → List (OItem π)
  | _, [] => []
  | c, d :: t => { Priority := P, Data := d, Order := c + 1 } :: mkItems P (c + 1) t

/-! ### The spec's description of `pop` (§4.1), for the refinement claim

Two transcriptions of "sifts the new root downward: at each step compare its
two children (if only one exists, use it; if none, stop), swap with the
smaller, repeat": `siftLiteral` performs exactly those steps (the swap with
the smaller child is unconditional), `siftGuarded` additionally stops when
the smaller child does not compare strictly less than the sifted node.  Both
pick the left child when the two children compare equal, as `down` does. -/

def siftLiteral (lt : α → α → Bool) : Nat → List α → Nat → List α
  | 0, h, _ => h
  | fuel + 1, h, j =>
    let n := Len h
    if leftChild j > n then h
    else
      let sc := if rightChild j > n then leftChild j
        else if Less lt h (leftChild j) (rightChild j) = true then leftChild j
        else rightChild j
      siftLiteral lt fuel (Swap h j sc) sc

/-- The spec's pop, steps read literally: swap root and last, drop the last
(the old root), sift the new root down by `siftLiteral`, return the original
root. -/
def popLiteral (lt : α → α → Bool) (h : List α) : Option α × List α :=
  if Empty h = true then (none, h)
  else (h[1]?, siftLiteral lt (Swap h 1 (Len h)).dropLast.length
    (Swap h 1 (Len h)).dropLast 1)

def siftGuarded (lt : α → α → Bool) : Nat → List α → Nat → List α
  | 0, h, _ => h
  | fuel + 1, h, j =>
    let n := Len h
    if leftChild j > n then h
    else
      let sc := if rightChild j > n then leftChild j
        else if Less lt h (leftChild j) (rightChild j) = true then leftChild j
        else rightChild j
      if Less lt h sc j = true then siftGuarded lt fuel (Swap h j sc) sc else h

/-- The spec's pop with the guarded sift: swap root and last, drop the last,
sift the new root down while it compares greater than its smaller child,
return the original root. -/
def popSpec (lt : α → α → Bool) (h : List α) : Option α × List α :=
  if Empty h = true then (none, h)
  else (h[1]?, siftGuarded lt (Swap h 1 (Len h)).dropLast.length
    (Swap h 1 (Len h)).dropLast 1)

/-! ### Basic facts about the heap primitives -/

theorem length_Swap (h : List α) (i j : Nat) : (Swap h i j).length = h.length := by
  unfold Swap
  rcases h[i]? with _ | a <;> rcases h[j]? with _ | b <;> simp

theorem Swap_fst {h : List α} {i j : Nat} (hi : i < h.length) (hj : j < h.length) :
    (Swap h i j)[i]? = h[j]? := by
  have hgi : h[i]? = some h[i] := List.getElem?_eq_getElem hi
  have hgj : h[j]? = some h[j] := List.getElem?_eq_getElem hj
  by_cases hij : i = j
  · subst hij
    simp only [Swap, hgi]
    rw [List.getElem?_set_eq_of_lt _ (by simpa using hi)]
  · simp only [Swap, hgi, hgj]
    rw [List.getElem?_set_ne (Ne.symm hij), List.getElem?_set_eq_of_lt _ hi]

theorem Swap_snd {h : List α} {i j : Nat} (hi : i < h.length) (hj : j < h.length) :
    (Swap h i j)[j]? = h[i]? := by
  have hgi : h[i]? = some h[i] := List.getElem?_eq_getElem hi
  have hgj : h[j]? = some h[j] := List.getElem?_eq_getElem hj
  by_cases hij : i = j
  · subst hij
    simp only [Swap, hgi]
    rw [List.getElem?_set_eq_of_lt _ (by simpa using hi)]
  · simp only [Swap, hgi, hgj]
    rw [List.getElem?_set_eq_of_lt _ (by simpa using hj)]

theorem Swap_other {h : List α} {i j k : Nat} (hk1 : k ≠ i) (hk2 : k ≠ j) :
    (Swap h i j)[k]? = h[k]? := by
  unfold Swap
  rcases h[i]? with _ | a <;> rcases h[j]? with _ | b <;> try rfl
  rw [List.getElem?_set_ne (Ne.symm hk2), List.getElem?_set_ne (Ne.symm hk1)]

theorem set_cons_perm :
    ∀ (l : List α) (k : Nat) (b x : α), l[k]? = some b →
      (l.set k x).Perm (x :: l.eraseIdx k) := by
  intro l
  induction l with
  | nil => intro k b x hk; simp at hk
  | cons y t ih =>
    intro k b x hk
    cases k with
    | zero => simp
    | succ n =>
      simp only [List.getElem?_cons_succ] at hk
      simp only [List.set_cons_succ, List.eraseIdx_cons_succ]
      exact ((ih n b x hk).cons y).trans (List.Perm.swap x y _)

theorem cons_eraseIdx_perm :
    ∀ (l : List α) (k : Nat) (b : α), l[k]? = some b →
      l.Perm (b :: l.eraseIdx k) := by
  intro l
  induction l with
  | nil => intro k b hk; simp at hk
  | cons y t ih =>
    intro k b hk
    cases k with
    | zero => simp at hk; simp [hk]
    | succ n =>
      simp only [List.getElem?_cons_succ] at hk
      simp only [List.eraseIdx_cons_succ]
      exact ((ih n b hk).cons y).trans (List.Perm.swap b y _)

theorem set_set_perm :
    ∀ (l : List α) (i j : Nat) (a b : α), l[i]? = some a → l[j]? = some b →
      ((l.set i b).set j a).Perm l := by
  intro l
  induction l with
  | nil => intro i j a b hi hj; simp at hi
  | cons y t ih =>
    intro i j a b hi hj
    cases i with
    | zero =>
      simp only [List.getElem?_cons_zero, Option.some_inj] at hi
      cases j with
      | zero =>
        simp only [List.getElem?_cons_zero, Option.some_inj] at hj
        simp [hi, hj]
      | succ m =>
        simp only [List.getElem?_cons_succ] at hj
        simp only [List.set_cons_zero, List.set_cons_succ]
        subst hi
        refine ((set_cons_perm t m b y hj).cons b).trans ?_
        exact (List.Perm.swap y b _).trans ((cons_eraseIdx_perm t m b hj).symm.cons y)
    | succ n =>
      simp only [List.getElem?_cons_succ] at hi
      cases j with
      | zero =>
        simp only [List.getElem?_cons_zero, Option.some_inj] at hj
        simp only [List.set_cons_succ, List.set_cons_zero]
        refine ?_
        subst hj
        refine ((set_cons_perm t n a y hi).cons a).trans ?_
        exact (List.Perm.swap y a _).trans ((cons_eraseIdx_perm t n a hi).symm.cons y)
      | succ m =>
        simp only [List.getElem?_cons_succ] at hj
        simp only [List.set_cons_succ]
        exact (ih n m a b hi hj).cons y

theorem Swap_perm (h : List α) (i j : Nat) : (Swap h i j).Perm h := by
  unfold Swap
  split
  · exact set_set_perm h i j _ _ (by assumption) (by assumption)
  · exact List.Perm.refl h

theorem Empty_eq_false_iff (h : List α) : Empty h = false ↔ 2 ≤ h.length := by
  simp only [Empty, Len, beq_eq_false_iff_ne, ne_eq]
  omega

theorem Empty_eq_true_iff (h : List α) : Empty h = true ↔ h.length ≤ 1 := by
  simp only [Empty, Len, beq_iff_eq]
  omega

theorem tail_perm_of_head {l₁ l₂ : List α} (hp : l₁.Perm l₂) (hh : l₁[0]? = l₂[0]?) :
    l₁.tail.Perm l₂.tail := by
  cases l₁ with
  | nil =>
    cases l₂ with
    | nil => exact List.Perm.refl _
    | cons b t₂ => exact absurd hp (by simp)
  | cons a t₁ =>
    cases l₂ with
    | nil => exact absurd hp (by simp)
    | cons b t₂ =>
      simp only [List.getElem?_cons_zero, Option.some_inj] at hh
      subst hh
      exact hp.cons_inv

/-! ### Length, sentinel and permutation facts for the sift functions -/

theorem length_upFuel (lt : α → α → Bool) :
    ∀ (fuel : Nat) (h : List α) (j : Nat), (upFuel lt fuel h j).length = h.length := by
  intro fuel
  induction fuel with
  | zero => intro h j; rfl
  | succ fuel ih =>
    intro h j
    rw [upFuel]
    split
    · rw [ih, length_Swap]
    · rfl

theorem upFuel_getElem_zero (lt : α → α → Bool) :
    ∀ (fuel : Nat) (h : List α) (j : Nat), 1 ≤ j →
      (upFuel lt fuel h j)[0]? = h[0]? := by
  intro fuel
  induction fuel with
  | zero => intro h j _; rfl
  | succ fuel ih =>
    intro h j hj
    rw [upFuel]
    split
    · next hc =>
      rw [ih _ _ (by unfold parent; omega)]
      exact Swap_other (by unfold parent; omega) (by omega)
    · rfl

theorem upFuel_perm (lt : α → α → Bool) :
    ∀ (fuel : Nat) (h : List α) (j : Nat), (upFuel lt fuel h j).Perm h := by
  intro fuel
  induction fuel with
  | zero => intro h j; exact List.Perm.refl _
  | succ fuel ih =>
    intro h j
    rw [upFuel]
    split
    · exact (ih _ _).trans (Swap_perm _ _ _)
    · exact List.Perm.refl _

theorem parent_def (k : Nat) : parent k = k / 2 := rfl

theorem leftChild_def (k : Nat) : leftChild k = k * 2 := rfl

theorem rightChild_def (k : Nat) : rightChild k = k * 2 + 1 := rfl

theorem sc_cases (lt : α → α → Bool) (h : List α) (j sc : Nat)
    (hsc : (if rightChild j > Len h then leftChild j
      else if Less lt h (leftChild j) (rightChild j) = true then leftChild j
      else rightChild j) = sc) :
    sc = leftChild j ∨ sc = rightChild j := by
  rw [← hsc]
  by_cases h1 : rightChild j > Len h
  · rw [if_pos h1]; exact Or.inl rfl
  · rw [if_neg h1]
    by_cases h2 : Less lt h (leftChild j) (rightChild j) = true
    · rw [if_pos h2]; exact Or.inl rfl
    · rw [if_neg h2]; exact Or.inr rfl

theorem length_downFuel (lt : α → α → Bool) :
    ∀ (fuel : Nat) (h : List α) (j : Nat), (downFuel lt fuel h j).length = h.length := by
  intro fuel
  induction fuel with
  | zero => intro h j; rfl
  | succ fuel ih =>
    intro h j
    simp only [downFuel]
    split
    · rfl
    · generalize (if rightChild j > Len h then leftChild j
        else if Less lt h (leftChild j) (rightChild j) = true then leftChild j
        else rightChild j) = sc
      split
      · rw [ih, length_Swap]
      · rfl

theorem downFuel_getElem_zero (lt : α → α → Bool) :
    ∀ (fuel : Nat) (h : List α) (j : Nat), 1 ≤ j →
      (downFuel lt fuel h j)[0]? = h[0]? := by
  intro fuel
  induction fuel with
  | zero => intro h j _; rfl
  | succ fuel ih =>
    intro h j hj
    simp only [downFuel]
    split
    · rfl
    · generalize hsc : (if rightChild j > Len h then leftChild j
        else if Less lt h (leftChild j) (rightChild j) = true then leftChild j
        else rightChild j) = sc
      have hmem : sc = leftChild j ∨ sc = rightChild j := sc_cases lt h j sc hsc
      have h1 : 1 ≤ sc := by
        rcases hmem with h' | h' <;> rw [h'] <;>
          simp only [leftChild_def, rightChild_def] <;> omega
      split
      · rw [ih _ _ h1]
        exact Swap_other (by omega) (by omega)
      · rfl

theorem downFuel_perm (lt : α → α → Bool) :
    ∀ (fuel : Nat) (h : List α) (j : Nat), (downFuel lt fuel h j).Perm h := by
  intro fuel
  induction fuel with
  | zero => intro h j; exact List.Perm.refl _
  | succ fuel ih =>
    intro h j
    simp only [downFuel]
    split
    · exact List.Perm.refl _
    · generalize (if rightChild j > Len h then leftChild j
        else if Less lt h (leftChild j) (rightChild j) = true then leftChild j
        else rightChild j) = sc
      split
      · exact (ih _ _).trans (Swap_perm _ _ _)
      · exact List.Perm.refl _

/-! ### Push and Pop: length, sentinel, returned root, contents -/

theorem length_Push (lt : α → α → Bool) (h : List α) (x : α) :
    (Push lt h x).length = h.length + 1 := by
  unfold Push up
  rw [length_upFuel]
  simp

theorem Push_getElem_zero (lt : α → α → Bool) (h : List α) (x : α) (hh : 1 ≤ h.length) :
    (Push lt h x)[0]? = h[0]? := by
  unfold Push up
  rw [upFuel_getElem_zero _ _ _ _ (by simp [Len]; omega)]
  exact List.getElem?_append_left (by omega)

theorem Push_perm (lt : α → α → Bool) (h : List α) (x : α) :
    (Push lt h x).Perm (x :: h) := by
  unfold Push up
  exact (upFuel_perm _ _ _ _).trans (List.perm_append_singleton x h)

theorem Pop_empty (lt : α → α → Bool) (h : List α) (he : Empty h = true) :
    Pop lt h = (none, h) := by
  simp [Pop, he]

theorem Pop_fst (lt : α → α → Bool) (h : List α) (hl : 2 ≤ h.length) :
    (Pop lt h).1 = h[1]? := by
  have he : Empty h = false := (Empty_eq_false_iff h).mpr hl
  simp only [Pop, he, Bool.false_eq_true, if_false]
  rw [List.getLast?_eq_getElem?, length_Swap]
  exact Swap_snd (by omega) (by simp [Len]; omega)

theorem length_Pop (lt : α → α → Bool) (h : List α) (hl : 2 ≤ h.length) :
    (Pop lt h).2.length = h.length - 1 := by
  have he : Empty h = false := (Empty_eq_false_iff h).mpr hl
  simp only [Pop, he, Bool.false_eq_true, if_false]
  unfold down
  rw [length_downFuel, List.length_dropLast, length_Swap]

theorem Pop_getElem_zero (lt : α → α → Bool) (h : List α) (hl : 2 ≤ h.length) :
    (Pop lt h).2[0]? = h[0]? := by
  have he : Empty h = false := (Empty_eq_false_iff h).mpr hl
  simp only [Pop, he, Bool.false_eq_true, if_false]
  unfold down
  rw [downFuel_getElem_zero _ _ _ _ (le_refl 1), List.getElem?_dropLast]
  rw [length_Swap, if_pos (by omega)]
  exact Swap_other (by omega) (by simp [Len]; omega)

theorem Pop_isSome (lt : α → α → Bool) (h : List α) (hl : 2 ≤ h.length) :
    (Pop lt h).1 = some h[1] := by
  rw [Pop_fst lt h hl]
  exact List.getElem?_eq_getElem (by omega)

theorem Pop_perm (lt : α → α → Bool) (h : List α) (hl : 2 ≤ h.length) {root : α}
    (hr : (Pop lt h).1 = some root) :
    (root :: (Pop lt h).2.tail).Perm h.tail := by
  have he : Empty h = false := (Empty_eq_false_iff h).mpr hl
  have hlen1 : (Swap h 1 (Len h)).length = h.length := length_Swap h 1 (Len h)
  have hfst : (Pop lt h).1 = (Swap h 1 (Len h)).getLast? := by
    simp only [Pop, he, Bool.false_eq_true, if_false]
  have hlast : (Swap h 1 (Len h)).getLast? = some root := by rw [← hfst, hr]
  have hsplit : (Swap h 1 (Len h)).dropLast ++ [root] = Swap h 1 (Len h) :=
    List.dropLast_append_getLast? root hlast
  have hsnd : (Pop lt h).2 = down lt (Swap h 1 (Len h)).dropLast 1 := by
    simp only [Pop, he, Bool.false_eq_true, if_false]
  have hdp : ((Pop lt h).2).Perm (Swap h 1 (Len h)).dropLast := by
    rw [hsnd]; unfold down; exact downFuel_perm _ _ _ _
  have hdh : ((Pop lt h).2)[0]? = (Swap h 1 (Len h)).dropLast[0]? := by
    rw [hsnd]; unfold down; exact downFuel_getElem_zero _ _ _ _ (le_refl 1)
  have t1 : ((Pop lt h).2.tail).Perm ((Swap h 1 (Len h)).dropLast.tail) :=
    tail_perm_of_head hdp hdh
  have hne : (Swap h 1 (Len h)).dropLast ≠ [] := by
    have : (Swap h 1 (Len h)).dropLast.length = h.length - 1 := by
      rw [List.length_dropLast, hlen1]
    intro hcon
    rw [hcon] at this
    simp at this
    omega
  have t2 : ((Swap h 1 (Len h)).dropLast.tail ++ [root]) = (Swap h 1 (Len h)).tail := by
    rw [← List.tail_append_of_ne_nil hne, hsplit]
  have t3 : ((Swap h 1 (Len h)).tail).Perm h.tail := by
    refine tail_perm_of_head (Swap_perm h 1 (Len h)) ?_
    exact Swap_other (by omega) (by simp [Len]; omega)
  refine ((t1.cons root).trans ?_).trans t3
  rw [← t2]
  exact (List.perm_append_singleton root _).symm

/-! ### Evaluating the comparator at indices -/

theorem Less_none_left {lt : α → α → Bool} {h : List α} {i j : Nat}
    (hgi : h[i]? = none) : Less lt h i j = false := by
  unfold Less
  rw [hgi]

theorem Less_none_right {lt : α → α → Bool} {h : List α} {i j : Nat}
    (hgj : h[j]? = none) : Less lt h i j = false := by
  unfold Less
  rw [hgj]
  rcases h[i]? with _ | a <;> rfl

theorem Less_eval {lt : α → α → Bool} {h : List α} {i j : Nat} {a b : α}
    (hgi : h[i]? = some a) (hgj : h[j]? = some b) : Less lt h i j = lt a b := by
  unfold Less
  rw [hgi, hgj]

theorem Less_congr {lt : α → α → Bool} {h h' : List α} {i j i' j' : Nat}
    (h1 : h'[i']? = h[i]?) (h2 : h'[j']? = h[j]?) :
    Less lt h' i' j' = Less lt h i j := by
  unfold Less
  rw [h1, h2]

theorem Less_asymm {lt : α → α → Bool}
    (hasymm : ∀ a b, lt a b = true → lt b a = false) {h : List α} {i j : Nat}
    (hij : Less lt h i j = true) : Less lt h j i = false := by
  by_cases hi : i < h.length
  · by_cases hj : j < h.length
    · have hgi := List.getElem?_eq_getElem hi
      have hgj := List.getElem?_eq_getElem hj
      rw [Less_eval hgi hgj] at hij
      rw [Less_eval hgj hgi]
      exact hasymm _ _ hij
    · rw [Less_none_right (List.getElem?_eq_none_iff.mpr (by omega))] at hij
      exact absurd hij (by simp)
  · rw [Less_none_left (List.getElem?_eq_none_iff.mpr (by omega))] at hij
    exact absurd hij (by simp)

theorem Less_irrefl {lt : α → α → Bool}
    (hasymm : ∀ a b, lt a b = true → lt b a = false) (h : List α) (i : Nat) :
    Less lt h i i = false := by
  by_cases hi : i < h.length
  · have hgi := List.getElem?_eq_getElem hi
    rw [Less_eval hgi hgi]
    cases hb : lt h[i] h[i]
    · rfl
    · exact absurd (hasymm _ _ hb) (by simp [hb])
  · exact Less_none_left (List.getElem?_eq_none_iff.mpr (by omega))

theorem Less_le_trans {lt : α → α → Bool}
    (hletrans : ∀ a b c, lt b a = false → lt c b = false → lt c a = false)
    {h : List α} {i j k : Nat}
    (hji : Less lt h j i = false) (hkj : Less lt h k j = false)
    (hi : i < h.length) (hj : j < h.length) (hk : k < h.length) :
    Less lt h k i = false := by
  have hgi := List.getElem?_eq_getElem hi
  have hgj := List.getElem?_eq_getElem hj
  have hgk := List.getElem?_eq_getElem hk
  rw [Less_eval hgj hgi] at hji
  rw [Less_eval hgk hgj] at hkj
  rw [Less_eval hgk hgi]
  exact hletrans _ _ _ hji hkj

/-! ### The sift-up invariant is maintained and yields the heap invariant -/

theorem upFuel_inv {lt : α → α → Bool}
    (hasymm : ∀ a b, lt a b = true → lt b a = false)
    (hletrans : ∀ a b c, lt b a = false → lt c b = false → lt c a = false) :
    ∀ (fuel : Nat) (h : List α) (j : Nat), 1 ≤ j → j < h.length → j ≤ fuel →
      UpInv lt h j → heapInv lt (upFuel lt fuel h j) := by
  intro fuel
  induction fuel with
  | zero => intro h j hj1 hjlen hjf hinv; omega
  | succ fuel ih =>
    intro h j hj1 hjlen hjf hinv
    rw [upFuel]
    split
    case isTrue hc =>
      obtain ⟨hj2, hless⟩ := hc
      have hplen : parent j < h.length := by rw [parent_def] at *; omega
      have hgp := List.getElem?_eq_getElem hplen
      have hgj := List.getElem?_eq_getElem hjlen
      rw [Less_eval hgj hgp] at hless
      have gp : (Swap h (parent j) j)[parent j]? = some h[j] :=
        (Swap_fst hplen hjlen).trans hgj
      have gj : (Swap h (parent j) j)[j]? = some h[parent j] :=
        (Swap_snd hplen hjlen).trans hgp
      have go : ∀ k, k ≠ parent j → k ≠ j → (Swap h (parent j) j)[k]? = h[k]? :=
        fun k hk1 hk2 => Swap_other hk1 hk2
      apply ih (Swap h (parent j) j) (parent j)
      · rw [parent_def]; omega
      · rw [length_Swap]; omega
      · rw [parent_def]; omega
      constructor
      · intro i hilen hi2 hip
        rw [length_Swap] at hilen
        by_cases hij : i = j
        · subst hij
          rw [Less_eval gj gp]
          exact hasymm _ _ hless
        · by_cases hpij : parent i = j
          · have gi : (Swap h (parent j) j)[i]? = some h[i] :=
              (go i hip hij).trans (List.getElem?_eq_getElem hilen)
            rw [hpij, Less_eval gi gj]
            have h2 := hinv.2 (by omega) i hilen hpij
            rw [Less_eval (List.getElem?_eq_getElem hilen) hgp] at h2
            exact h2
          · by_cases hpip : parent i = parent j
            · have gi : (Swap h (parent j) j)[i]? = some h[i] :=
                (go i hip hij).trans (List.getElem?_eq_getElem hilen)
              rw [hpip, Less_eval gi gp]
              have h3 := hinv.1 i hilen hi2 hij
              rw [hpip, Less_eval (List.getElem?_eq_getElem hilen) hgp] at h3
              have h4 : lt h[parent j] h[j] = false := hasymm _ _ hless
              exact hletrans _ _ _ h4 h3
            · have gi : (Swap h (parent j) j)[i]? = h[i]? := go i hip hij
              have gpi : (Swap h (parent j) j)[parent i]? = h[parent i]? :=
                go (parent i) hpip hpij
              rw [Less_congr gi gpi]
              exact hinv.1 i hilen hi2 hij
      · intro hp2 c hclen hpc
        rw [length_Swap] at hclen
        have hc2p : 2 * parent j ≤ c := by
          simp only [parent_def] at hpc ⊢; omega
        have hcp : c ≠ parent j := by omega
        have hpplen : parent (parent j) < h.length := by
          simp only [parent_def]; omega
        have hppne1 : parent (parent j) ≠ parent j := by
          simp only [parent_def]; omega
        have hppne2 : parent (parent j) ≠ j := by
          simp only [parent_def]; omega
        have gpp : (Swap h (parent j) j)[parent (parent j)]? = h[parent (parent j)]? :=
          go _ hppne1 hppne2
        have hp_ok := hinv.1 (parent j) hplen hp2 (by simp only [parent_def]; omega)
        rw [Less_eval hgp (List.getElem?_eq_getElem hpplen)] at hp_ok
        by_cases hcj : c = j
        · subst hcj
          rw [Less_eval gj (gpp.trans (List.getElem?_eq_getElem hpplen))]
          exact hp_ok
        · have gc : (Swap h (parent j) j)[c]? = h[c]? := go c hcp hcj
          rw [Less_eval (gc.trans (List.getElem?_eq_getElem hclen))
            (gpp.trans (List.getElem?_eq_getElem hpplen))]
          have h5 := hinv.1 c hclen (by omega) hcj
          rw [hpc, Less_eval (List.getElem?_eq_getElem hclen) hgp] at h5
          exact hletrans _ _ _ hp_ok h5
    case isFalse hc =>
      intro i hilen hi2
      by_cases hij : i = j
      · subst hij
        rcases not_and_or.mp hc with hc1 | hc2
        · omega
        · cases hb : Less lt h i (parent i)
          · rfl
          · exact absurd hb hc2
      · exact hinv.1 i hilen hi2 hij

theorem Push_heapInv {lt : α → α → Bool}
    (hasymm : ∀ a b, lt a b = true → lt b a = false)
    (hletrans : ∀ a b c, lt b a = false → lt c b = false → lt c a = false)
    (h : List α) (x : α) (hh : 1 ≤ h.length) (hinv : heapInv lt h) :
    heapInv lt (Push lt h x) := by
  unfold Push up
  have hLen : Len (h ++ [x]) = h.length := by simp [Len]
  rw [hLen]
  apply upFuel_inv hasymm hletrans h.length (h ++ [x]) h.length hh
    (by simp) (le_refl _)
  constructor
  · intro i hilen hi2 hij
    simp only [List.length_append, List.length_cons, List.length_nil] at hilen
    have hilt : i < h.length := by omega
    have hplt : parent i < h.length := by simp only [parent_def]; omega
    rw [Less_congr (List.getElem?_append_left hilt) (List.getElem?_append_left hplt)]
    exact hinv i hilt hi2
  · intro h2 c hclen hpc
    simp only [List.length_append, List.length_cons, List.length_nil] at hclen
    simp only [parent_def] at hpc
    omega

/-! ### The sift-down invariant is maintained and yields the heap invariant -/

theorem downFuel_inv {lt : α → α → Bool}
    (hasymm : ∀ a b, lt a b = true → lt b a = false)
    (hletrans : ∀ a b c, lt b a = false → lt c b = false → lt c a = false) :
    ∀ (fuel : Nat) (h : List α) (j : Nat), 1 ≤ j → Len h < fuel + j →
      DownInv lt h j → heapInv lt (downFuel lt fuel h j) := by
  intro fuel
  induction fuel with
  | zero =>
    intro h j hj1 hjf hinv
    show heapInv lt h
    intro i hilen hi2
    refine hinv.1 i hilen hi2 ?_
    simp only [parent_def]
    simp only [Len] at hjf
    omega
  | succ fuel ih =>
    intro h j hj1 hjf hinv
    simp only [downFuel]
    split
    case isTrue hl =>
      intro i hilen hi2
      refine hinv.1 i hilen hi2 ?_
      simp only [parent_def]
      simp only [leftChild_def, Len] at hl
      omega
    case isFalse hl =>
      generalize hscdef : (if rightChild j > Len h then leftChild j
        else if Less lt h (leftChild j) (rightChild j) = true then leftChild j
        else rightChild j) = sc
      have hmem : sc = leftChild j ∨ sc = rightChild j := sc_cases lt h j sc hscdef
      have hscn : sc ≤ Len h := by
        rw [← hscdef]
        by_cases h1 : rightChild j > Len h
        · rw [if_pos h1]; omega
        · rw [if_neg h1]
          split
          · omega
          · omega
      have hscmin : ∀ c, c ≤ Len h → (c = leftChild j ∨ c = rightChild j) →
          Less lt h c sc = false := by
        intro c hcn hcmem
        rw [← hscdef]
        by_cases h1 : rightChild j > Len h
        · rw [if_pos h1]
          rcases hcmem with rfl | rfl
          · exact Less_irrefl hasymm h _
          · omega
        · rw [if_neg h1]
          by_cases h2 : Less lt h (leftChild j) (rightChild j) = true
          · rw [if_pos h2]
            rcases hcmem with rfl | rfl
            · exact Less_irrefl hasymm h _
            · exact Less_asymm hasymm h2
          · rw [if_neg h2]
            rcases hcmem with rfl | rfl
            · cases hb : Less lt h (leftChild j) (rightChild j)
              · rfl
              · exact absurd hb h2
            · exact Less_irrefl hasymm h _
      split
      case isTrue hcond =>
        obtain ⟨hscn2, hless⟩ := hcond
        have hjlen : j < h.length := by
          simp only [leftChild_def, Len] at hl
          simp only [Len] at hscn
          omega
        have hsclen : sc < h.length := by simp only [Len] at hscn; omega
        have hjsc : j ≠ sc := by
          rcases hmem with rfl | rfl <;> simp only [leftChild_def, rightChild_def] <;> omega
        have hpsc : parent sc = j := by
          rcases hmem with rfl | rfl <;>
            simp only [leftChild_def, rightChild_def, parent_def] <;> omega
        have hgj := List.getElem?_eq_getElem hjlen
        have hgsc := List.getElem?_eq_getElem hsclen
        rw [Less_eval hgsc hgj] at hless
        have gj : (Swap h j sc)[j]? = some h[sc] := (Swap_fst hjlen hsclen).trans hgsc
        have gsc : (Swap h j sc)[sc]? = some h[j] := (Swap_snd hjlen hsclen).trans hgj
        have go : ∀ k, k ≠ j → k ≠ sc → (Swap h j sc)[k]? = h[k]? :=
          fun k hk1 hk2 => Swap_other hk1 hk2
        apply ih (Swap h j sc) sc
        · rcases hmem with rfl | rfl <;> simp only [leftChild_def, rightChild_def] <;> omega
        · have : Len (Swap h j sc) = Len h := by simp only [Len, length_Swap]
          rw [this]
          rcases hmem with rfl | rfl <;> simp only [leftChild_def, rightChild_def] <;> omega
        constructor
        · intro i hilen hi2 hpisc
          rw [length_Swap] at hilen
          by_cases hisc : i = sc
          · subst hisc
            rw [hpsc, Less_eval gsc gj]
            exact hasymm _ _ hless
          · by_cases hpij : parent i = j
            · have hij : i ≠ j := by
                intro hcon
                rw [hcon] at hpij
                simp only [parent_def] at hpij
                omega
              have gi : (Swap h j sc)[i]? = some h[i] :=
                (go i hij hisc).trans (List.getElem?_eq_getElem hilen)
              rw [hpij, Less_eval gi gj]
              have hchild : i = leftChild j ∨ i = rightChild j := by
                simp only [parent_def] at hpij
                simp only [leftChild_def, rightChild_def]
                omega
              have h6 := hscmin i (by simp only [Len]; omega) hchild
              rw [Less_eval (List.getElem?_eq_getElem hilen) hgsc] at h6
              exact h6
            · by_cases hij : i = j
              · rw [hij] at hpisc hi2 ⊢
                have hplen : parent j < h.length := by
                  simp only [parent_def]; omega
                have gpj : (Swap h j sc)[parent j]? = some h[parent j] :=
                  (go (parent j) (by simp only [parent_def]; omega) hpisc).trans
                    (List.getElem?_eq_getElem hplen)
                rw [Less_eval gj gpj]
                have h10 := hinv.2 hi2 sc hsclen hpsc
                rw [Less_eval hgsc (List.getElem?_eq_getElem hplen)] at h10
                exact h10
              · have gi : (Swap h j sc)[i]? = h[i]? := go i hij hisc
                have gpi : (Swap h j sc)[parent i]? = h[parent i]? :=
                  go (parent i) hpij hpisc
                rw [Less_congr gi gpi]
                exact hinv.1 i hilen hi2 hpij
        · intro hsc2 c hclen hpc
          rw [length_Swap] at hclen
          have hjltsc : j < sc := by
            rcases hmem with rfl | rfl <;>
              simp only [leftChild_def, rightChild_def] <;> omega
          have hcne_j : c ≠ j := by
            simp only [parent_def] at hpc
            omega
          have hcne_sc : c ≠ sc := by
            simp only [parent_def] at hpc
            omega
          have gc : (Swap h j sc)[c]? = some h[c] :=
            (go c hcne_j hcne_sc).trans (List.getElem?_eq_getElem hclen)
          rw [hpsc, Less_eval gc gj]
          have h7 := hinv.1 c hclen (by simp only [parent_def] at hpc; omega)
            (by rw [hpc]; omega)
          rw [hpc, Less_eval (List.getElem?_eq_getElem hclen) hgsc] at h7
          exact h7
      case isFalse hcond =>
        intro i hilen hi2
        by_cases hpij : parent i = j
        · have hchild : i = leftChild j ∨ i = rightChild j := by
            simp only [parent_def] at hpij
            simp only [leftChild_def, rightChild_def]
            omega
          have hin : i ≤ Len h := by simp only [Len]; omega
          have h8 := hscmin i hin hchild
          have h9 : Less lt h sc j = false := by
            rcases not_and_or.mp hcond with hc1 | hc2
            · omega
            · cases hb : Less lt h sc j
              · rfl
              · exact absurd hb hc2
          rw [hpij]
          have hjlen : j < h.length := by
            simp only [leftChild_def, Len] at hl
            omega
          have hsclen : sc < h.length := by simp only [Len] at hscn; omega
          exact Less_le_trans hletrans h9 h8 hjlen hsclen hilen
        · exact hinv.1 i hilen hi2 hpij

theorem Empty_false_of_not {h : List α} (he : ¬Empty h = true) : Empty h = false := by
  revert he
  cases Empty h <;> simp

theorem Pop_heapInv {lt : α → α → Bool}
    (hasymm : ∀ a b, lt a b = true → lt b a = false)
    (hletrans : ∀ a b c, lt b a = false → lt c b = false → lt c a = false)
    (h : List α) (hinv : heapInv lt h) : heapInv lt (Pop lt h).2 := by
  by_cases he : Empty h = true
  · rw [Pop_empty lt h he]
    exact hinv
  · have hEf : Empty h = false := Empty_false_of_not he
    have hl2 : 2 ≤ h.length := (Empty_eq_false_iff h).mp hEf
    rw [show (Pop lt h).2 = down lt (Swap h 1 (Len h)).dropLast 1 from by
      simp only [Pop, hEf, Bool.false_eq_true, if_false]]
    unfold down
    apply downFuel_inv hasymm hletrans _ _ 1 (le_refl 1)
    · simp only [Len]; omega
    constructor
    · intro i hilen hi2 hpi1
      have hdl : (Swap h 1 (Len h)).dropLast.length = h.length - 1 := by
        rw [List.length_dropLast, length_Swap]
      rw [hdl] at hilen
      have hget : ∀ k, k ≠ 1 → k < h.length - 1 →
          (Swap h 1 (Len h)).dropLast[k]? = h[k]? := by
        intro k hk1 hklt
        rw [List.getElem?_dropLast, length_Swap, if_pos (by simp [Len] at *; omega)]
        exact Swap_other hk1 (by simp only [Len]; omega)
      have hplt : parent i < h.length - 1 := by simp only [parent_def] at *; omega
      have hp1 : parent i ≥ 1 := by simp only [parent_def]; omega
      rw [Less_congr (hget i (by omega) hilen) (hget (parent i) hpi1 hplt)]
      exact hinv i (by omega) hi2
    · intro hcon
      omega

/-! ### The root is minimal and draining is sorted -/

theorem root_le {lt : α → α → Bool}
    (hasymm : ∀ a b, lt a b = true → lt b a = false)
    (hletrans : ∀ a b c, lt b a = false → lt c b = false → lt c a = false)
    (h : List α) (hinv : heapInv lt h) :
    ∀ i, 1 ≤ i → i < h.length → Less lt h i 1 = false := by
  intro i
  induction i using Nat.strong_induction_on with
  | _ i ih =>
    intro hi1 hilen
    by_cases hi : i = 1
    · subst hi
      exact Less_irrefl hasymm h 1
    · have hi2 : 2 ≤ i := by omega
      have hpar := hinv i hilen hi2
      have hplt : parent i < i := by simp only [parent_def]; omega
      have hp1 : 1 ≤ parent i := by simp only [parent_def]; omega
      have hIH := ih (parent i) hplt hp1 (by omega)
      exact Less_le_trans hletrans hIH hpar (by omega) (by omega) hilen

theorem root_min {lt : α → α → Bool}
    (hasymm : ∀ a b, lt a b = true → lt b a = false)
    (hletrans : ∀ a b c, lt b a = false → lt c b = false → lt c a = false)
    (h : List α) (hinv : heapInv lt h) (hl : 2 ≤ h.length) :
    ∀ x ∈ h.tail, lt x h[1] = false := by
  intro x hx
  obtain ⟨k, hk⟩ := List.mem_iff_getElem?.mp hx
  rw [List.getElem?_tail] at hk
  have hklt : k + 1 < h.length := by
    rcases List.getElem?_eq_some_iff.mp hk with ⟨hlt, _⟩
    exact hlt
  have hle := root_le hasymm hletrans h hinv (k + 1) (by omega) hklt
  rw [Less_eval hk (List.getElem?_eq_getElem (by omega))] at hle
  exact hle

theorem drainFuel_perm_sorted {lt : α → α → Bool}
    (hasymm : ∀ a b, lt a b = true → lt b a = false)
    (hletrans : ∀ a b c, lt b a = false → lt c b = false → lt c a = false) :
    ∀ (fuel : Nat) (h : List α), heapInv lt h → Len h ≤ fuel →
      (drainFuel lt fuel h).Perm h.tail ∧
        List.Pairwise (HeapLe lt) (drainFuel lt fuel h) := by
  intro fuel
  induction fuel with
  | zero =>
    intro h hinv hlen
    have htail : h.tail = [] := by
      rw [← List.length_eq_zero]
      rw [List.length_tail]
      simp only [Len] at hlen
      omega
    exact ⟨by rw [htail]; exact List.Perm.refl _, List.Pairwise.nil⟩
  | succ fuel ih =>
    intro h hinv hlen
    by_cases he : Empty h = true
    · have htail : h.tail = [] := by
        rw [← List.length_eq_zero, List.length_tail]
        have := (Empty_eq_true_iff h).mp he
        omega
      rw [show drainFuel lt (fuel + 1) h = [] from by
        rw [drainFuel, Pop_empty lt h he]]
      exact ⟨by rw [htail], List.Pairwise.nil⟩
    · have hEf : Empty h = false := Empty_false_of_not he
      have hl2 : 2 ≤ h.length := (Empty_eq_false_iff h).mp hEf
      have hr := Pop_isSome lt h hl2
      have hps : Pop lt h = (some h[1], (Pop lt h).2) := by
        rw [Prod.ext_iff]
        exact ⟨hr, rfl⟩
      have hstep : drainFuel lt (fuel + 1) h = h[1] :: drainFuel lt fuel (Pop lt h).2 := by
        rw [drainFuel, hps]
      have hinv2 : heapInv lt (Pop lt h).2 :=
        Pop_heapInv hasymm hletrans h hinv
      have hlen2 : Len (Pop lt h).2 ≤ fuel := by
        have := length_Pop lt h hl2
        simp only [Len] at hlen ⊢
        omega
      obtain ⟨ihp, ihs⟩ := ih (Pop lt h).2 hinv2 hlen2
      rw [hstep]
      constructor
      · exact (ihp.cons h[1]).trans (Pop_perm lt h hl2 hr)
      · refine List.Pairwise.cons ?_ ihs
        intro x hx
        have hx2 : x ∈ (Pop lt h).2.tail := ihp.mem_iff.mp hx
        have hx3 : x ∈ h.tail :=
          (Pop_perm lt h hl2 hr).mem_iff.mp (List.mem_cons_of_mem _ hx2)
        exact root_min hasymm hletrans h hinv hl2 x hx3

theorem drainItems_perm {lt : α → α → Bool}
    (hasymm : ∀ a b, lt a b = true → lt b a = false)
    (hletrans : ∀ a b c, lt b a = false → lt c b = false → lt c a = false)
    (h : List α) (hinv : heapInv lt h) : (drainItems lt h).Perm h.tail :=
  (drainFuel_perm_sorted hasymm hletrans (Len h) h hinv (le_refl _)).1

theorem drainItems_sorted {lt : α → α → Bool}
    (hasymm : ∀ a b, lt a b = true → lt b a = false)
    (hletrans : ∀ a b c, lt b a = false → lt c b = false → lt c a = false)
    (h : List α) (hinv : heapInv lt h) :
    List.Pairwise (HeapLe lt) (drainItems lt h) :=
  (drainFuel_perm_sorted hasymm hletrans (Len h) h hinv (le_refl _)).2

/-- A permutation that is sorted weakly is determined by a strictly sorted
permutation: the unique-sorted-order lemma used for the FIFO and renumbering
claims. -/
theorem perm_sorted_strict_eq {lt : α → α → Bool} :
    ∀ (l₂ l₁ : List α), l₁.Perm l₂ → List.Pairwise (HeapLe lt) l₁ →
      List.Pairwise (fun a b => lt a b = true) l₂ → l₁ = l₂ := by
  intro l₂
  induction l₂ with
  | nil =>
    intro l₁ hp _ _
    exact List.Perm.eq_nil hp
  | cons b t₂ ih =>
    intro l₁ hp hs₁ hs₂
    cases l₁ with
    | nil => exact absurd hp.symm (by simp)
    | cons a t₁ =>
      by_cases hab : a = b
      · subst hab
        rw [ih t₁ hp.cons_inv (List.Pairwise.sublist (List.sublist_cons_self a t₁) hs₁)
          (List.Pairwise.sublist (List.sublist_cons_self a t₂) hs₂)]
      · have ha : a ∈ b :: t₂ := hp.mem_iff.mp (List.mem_cons_self a t₁)
        have hat : a ∈ t₂ := by
          rcases List.mem_cons.mp ha with h1 | h1
          · exact absurd h1 hab
          · exact h1
        have hba : lt b a = true := (List.pairwise_cons.mp hs₂).1 a hat
        have hb : b ∈ a :: t₁ := hp.symm.mem_iff.mp (List.mem_cons_self b t₂)
        have hbt : b ∈ t₁ := by
          rcases List.mem_cons.mp hb with h1 | h1
          · exact absurd h1.symm hab
          · exact h1
        have hab2 : HeapLe lt a b := (List.pairwise_cons.mp hs₁).1 b hbt
        rw [HeapLe] at hab2
        rw [hba] at hab2
        exact absurd hab2 (by simp)

/-! ### The two concrete comparators are strict weak orders -/

theorem lessT_asymm {π : Type} :
    ∀ a b : Item π, lessT a b = true → lessT b a = false := by
  rintro ⟨p, d, t⟩ ⟨q, e, u⟩ hab
  simp only [lessT, beq_iff_eq] at hab ⊢
  split_ifs at hab ⊢ <;>
    simp only [decide_eq_true_eq, decide_eq_false_iff_not] at hab ⊢ <;> omega

theorem lessT_letrans {π : Type} :
    ∀ a b c : Item π, lessT b a = false → lessT c b = false → lessT c a = false := by
  rintro ⟨p, d, t⟩ ⟨q, e, u⟩ ⟨r, f, v⟩ h1 h2
  simp only [lessT, beq_iff_eq] at h1 h2 ⊢
  split_ifs at h1 h2 ⊢ <;>
    simp only [decide_eq_true_eq, decide_eq_false_iff_not] at h1 h2 ⊢ <;> omega

theorem lessO_asymm {π : Type} :
    ∀ a b : OItem π, lessO a b = true → lessO b a = false := by
  rintro ⟨p, d, t⟩ ⟨q, e, u⟩ hab
  simp only [lessO, beq_iff_eq] at hab ⊢
  split_ifs at hab ⊢ <;>
    simp only [decide_eq_true_eq, decide_eq_false_iff_not] at hab ⊢ <;> omega

theorem lessO_letrans {π : Type} :
    ∀ a b c : OItem π, lessO b a = false → lessO c b = false → lessO c a = false := by
  rintro ⟨p, d, t⟩ ⟨q, e, u⟩ ⟨r, f, v⟩ h1 h2
  simp only [lessO, beq_iff_eq] at h1 h2 ⊢
  split_ifs at h1 h2 ⊢ <;>
    simp only [decide_eq_true_eq, decide_eq_false_iff_not] at h1 h2 ⊢ <;> omega

theorem lessO_priority_mono {π : Type} {a b : OItem π} (hab : HeapLe lessO a b) :
    a.Priority ≤ b.Priority := by
  rcases a with ⟨p, d, t⟩
  rcases b with ⟨q, e, u⟩
  show p ≤ q
  simp only [HeapLe, lessO, beq_iff_eq] at hab
  split_ifs at hab <;>
    simp only [decide_eq_false_iff_not] at hab <;> omega

theorem NewHeapT_heapInv {π : Type} : heapInv lessT (NewHeapT π) := by
  intro i hilen hi2
  simp only [NewHeapT, List.length_cons, List.length_nil] at hilen
  omega

theorem NewHeapO_heapInv {π : Type} : heapInv lessO (NewHeapO π) := by
  intro i hilen hi2
  simp only [NewHeapO, List.length_cons, List.length_nil] at hilen
  omega

/-! ### Folding pushes: length, invariant, contents -/

theorem Push_tail_perm (lt : α → α → Bool) (h : List α) (x : α) (hh : 1 ≤ h.length) :
    (Push lt h x).tail.Perm (h.tail ++ [x]) := by
  have hne : h ≠ [] := by
    intro hcon
    rw [hcon] at hh
    simp at hh
  have hperm : (Push lt h x).Perm (h ++ [x]) := by
    unfold Push up
    exact upFuel_perm _ _ _ _
  have hhead : (Push lt h x)[0]? = (h ++ [x])[0]? := by
    rw [Push_getElem_zero lt h x hh]
    exact (List.getElem?_append_left (by omega)).symm
  have := tail_perm_of_head hperm hhead
  rw [List.tail_append_of_ne_nil hne] at this
  exact this

theorem foldl_Push_length (lt : α → α → Bool) :
    ∀ (xs : List α) (h : List α), (xs.foldl (Push lt) h).length = h.length + xs.length := by
  intro xs
  induction xs with
  | nil => intro h; rfl
  | cons x t ih =>
    intro h
    rw [List.foldl_cons, ih, length_Push]
    simp only [List.length_cons]
    omega

theorem foldl_Push_heapInv {lt : α → α → Bool}
    (hasymm : ∀ a b, lt a b = true → lt b a = false)
    (hletrans : ∀ a b c, lt b a = false → lt c b = false → lt c a = false) :
    ∀ (xs : List α) (h : List α), 1 ≤ h.length → heapInv lt h →
      heapInv lt (xs.foldl (Push lt) h) := by
  intro xs
  induction xs with
  | nil => intro h _ hinv; exact hinv
  | cons x t ih =>
    intro h hh hinv
    rw [List.foldl_cons]
    refine ih (Push lt h x) ?_ ?_
    · rw [length_Push]; omega
    · exact Push_heapInv hasymm hletrans h x hh hinv

theorem foldl_Push_tail_perm (lt : α → α → Bool) :
    ∀ (xs : List α) (h : List α), 1 ≤ h.length →
      ((xs.foldl (Push lt) h).tail).Perm (h.tail ++ xs) := by
  intro xs
  induction xs with
  | nil => intro h _; simp
  | cons x t ih =>
    intro h hh
    rw [List.foldl_cons]
    have h1 := ih (Push lt h x) (by rw [length_Push]; omega)
    have h2 := (Push_tail_perm lt h x hh).append_right t
    refine h1.trans (h2.trans ?_)
    rw [List.append_assoc, List.singleton_append]

/-! ### Drain length and the queue-layer drain correspondence -/

theorem drainFuel_step {lt : α → α → Bool} (fuel : Nat) (h : List α)
    (hl2 : 2 ≤ h.length) :
    drainFuel lt (fuel + 1) h = h[1] :: drainFuel lt fuel (Pop lt h).2 := by
  have hr := Pop_isSome lt h hl2
  have hps : Pop lt h = (some h[1], (Pop lt h).2) := by
    rw [Prod.ext_iff]
    exact ⟨hr, rfl⟩
  rw [drainFuel, hps]

theorem length_drainFuel (lt : α → α → Bool) :
    ∀ (fuel : Nat) (h : List α), (drainFuel lt fuel h).length = min fuel (Len h) := by
  intro fuel
  induction fuel with
  | zero => intro h; simp [drainFuel]
  | succ fuel ih =>
    intro h
    by_cases he : Empty h = true
    · have h0 : Len h = 0 := by
        have := (Empty_eq_true_iff h).mp he
        simp only [Len]
        omega
      rw [show drainFuel lt (fuel + 1) h = [] from by rw [drainFuel, Pop_empty lt h he]]
      simp [h0]
    · have hEf : Empty h = false := Empty_false_of_not he
      have hl2 : 2 ≤ h.length := (Empty_eq_false_iff h).mp hEf
      rw [drainFuel_step fuel h hl2]
      rw [List.length_cons, ih]
      have := length_Pop lt h hl2
      simp only [Len, this]
      omega

theorem length_drainItems (lt : α → α → Bool) (h : List α) :
    (drainItems lt h).length = Len h := by
  rw [drainItems, length_drainFuel]
  omega

theorem dequeueDrain_eq {π : Type} :
    ∀ (fuel : Nat) (q : Queue π),
      dequeueDrain fuel q = (drainFuel lessO fuel q.heap).map OItem.Data := by
  intro fuel
  induction fuel with
  | zero => intro q; rfl
  | succ fuel ih =>
    intro q
    rcases hp : Pop lessO q.heap with ⟨o, h2⟩
    cases o with
    | none =>
      rw [show dequeueDrain (fuel + 1) q = [] from by
        rw [dequeueDrain, show Dequeue q = ((none, some DeqError.popEmptyQueue),
          { q with heap := h2 }) from by rw [Dequeue, hp]]]
      rw [show drainFuel lessO (fuel + 1) q.heap = [] from by rw [drainFuel, hp]]
      rfl
    | some a =>
      rw [show dequeueDrain (fuel + 1) q = a.Data :: dequeueDrain fuel { q with heap := h2 }
          from by
        rw [dequeueDrain, show Dequeue q = ((a.Data, none), { q with heap := h2 }) from by
          rw [Dequeue, hp]]]
      rw [show drainFuel lessO (fuel + 1) q.heap = a :: drainFuel lessO fuel h2 from by
        rw [drainFuel, hp]]
      rw [List.map_cons, ih]

/-! ### Renumbering and the items a run of enqueues constructs -/

theorem renumber_length {π : Type} :
    ∀ (k : Nat) (xs : List (OItem π)), (renumber k xs).length = xs.length := by
  intro k xs
  induction xs generalizing k with
  | nil => rfl
  | cons a t ih => simp [renumber, ih]

theorem renumber_map_pd {π : Type} :
    ∀ (k : Nat) (xs : List (OItem π)),
      (renumber k xs).map (fun x => (x.Priority, x.Data)) =
        xs.map (fun x => (x.Priority, x.Data)) := by
  intro k xs
  induction xs generalizing k with
  | nil => rfl
  | cons a t ih => simp [renumber, ih]

theorem renumber_map_order {π : Type} :
    ∀ (k : Nat) (xs : List (OItem π)),
      (renumber k xs).map OItem.Order = List.range' k xs.length := by
  intro k xs
  induction xs generalizing k with
  | nil => rfl
  | cons a t ih =>
    simp only [renumber, List.map_cons, List.length_cons, List.range'_succ, ih]

theorem renumber_mem {π : Type} :
    ∀ (k : Nat) (xs : List (OItem π)) (b : OItem π), b ∈ renumber k xs →
      k ≤ b.Order ∧ ∃ c ∈ xs, b.Priority = c.Priority := by
  intro k xs
  induction xs generalizing k with
  | nil => intro b hb; simp [renumber] at hb
  | cons a t ih =>
    intro b hb
    rcases List.mem_cons.mp hb with hb | hb
    · subst hb
      exact ⟨le_refl _, a, List.mem_cons_self a t, rfl⟩
    · obtain ⟨h1, c, hc, h2⟩ := ih (k + 1) b hb
      exact ⟨by omega, c, List.mem_cons_of_mem a hc, h2⟩

theorem lessO_of_priority_order {π : Type} (a b : OItem π)
    (hp : a.Priority ≤ b.Priority) (ho : a.Priority = b.Priority → a.Order < b.Order) :
    lessO a b = true := by
  rcases a with ⟨p, d, t⟩
  rcases b with ⟨q, e, u⟩
  simp only at hp ho
  simp only [lessO, beq_iff_eq]
  split_ifs with h1
  · simp only [decide_eq_true_eq]
    exact ho h1
  · simp only [decide_eq_true_eq]
    omega

theorem renumber_pairwise {π : Type} :
    ∀ (k : Nat) (xs : List (OItem π)),
      List.Pairwise (fun a b => a.Priority ≤ b.Priority) xs →
      List.Pairwise (fun a b => lessO a b = true) (renumber k xs) := by
  intro k xs
  induction xs generalizing k with
  | nil => intro _; exact List.Pairwise.nil
  | cons a t ih =>
    intro hp
    rw [renumber]
    refine List.Pairwise.cons ?_ (ih (k + 1) (List.pairwise_cons.mp hp).2)
    intro b hb
    obtain ⟨h1, c, hc, h2⟩ := renumber_mem (k + 1) t b hb
    refine lessO_of_priority_order _ b ?_ ?_
    · rw [h2]
      exact (List.pairwise_cons.mp hp).1 c hc
    · intro _
      show k < b.Order
      omega

theorem mkItems_map_data {π : Type} (P : Int) :
    ∀ (c : Nat) (ps : List (Option π)), (mkItems P c ps).map OItem.Data = ps := by
  intro c ps
  induction ps generalizing c with
  | nil => rfl
  | cons d t ih => simp [mkItems, ih]

theorem mkItems_mem {π : Type} (P : Int) :
    ∀ (c : Nat) (ps : List (Option π)) (b : OItem π), b ∈ mkItems P c ps →
      b.Priority = P ∧ c + 1 ≤ b.Order := by
  intro c ps
  induction ps generalizing c with
  | nil => intro b hb; simp [mkItems] at hb
  | cons d t ih =>
    intro b hb
    rcases List.mem_cons.mp hb with hb | hb
    · subst hb
      exact ⟨rfl, le_refl _⟩
    · obtain ⟨h1, h2⟩ := ih (c + 1) b hb
      exact ⟨h1, by omega⟩

theorem mkItems_pairwise {π : Type} (P : Int) :
    ∀ (c : Nat) (ps : List (Option π)),
      List.Pairwise (fun a b => lessO a b = true) (mkItems P c ps) := by
  intro c ps
  induction ps generalizing c with
  | nil => exact List.Pairwise.nil
  | cons d t ih =>
    rw [mkItems]
    refine List.Pairwise.cons ?_ (ih (c + 1))
    intro b hb
    obtain ⟨h1, h2⟩ := mkItems_mem P (c + 1) t b hb
    refine lessO_of_priority_order _ b (by rw [h1]) ?_
    intro _
    show c + 1 < b.Order
    omega

/-! ### Rebuilding a heap by pushes and the renumbering pass -/

theorem drain_rebuild {π : Type} (items : List (OItem π))
    (hpw : List.Pairwise (fun a b => lessO a b = true) items) :
    drainItems lessO (items.foldl (Push lessO) (NewHeapO π)) = items := by
  have hone : 1 ≤ (NewHeapO π).length := by simp [NewHeapO]
  have hinv := foldl_Push_heapInv lessO_asymm lessO_letrans items (NewHeapO π) hone
    NewHeapO_heapInv
  have hperm : (drainItems lessO (items.foldl (Push lessO) (NewHeapO π))).Perm items := by
    refine (drainItems_perm lessO_asymm lessO_letrans _ hinv).trans ?_
    refine (foldl_Push_tail_perm lessO items (NewHeapO π) hone).trans ?_
    simp [NewHeapO]
  exact perm_sorted_strict_eq items _ hperm
    (drainItems_sorted lessO_asymm lessO_letrans _ hinv) hpw

theorem ReOrder_snd {π : Type} (h : List (OItem π)) :
    (ReOrder h).2 = (renumber 0 (drainItems lessO h)).foldl (Push lessO) (NewHeapO π) := rfl

theorem ReOrder_fst {π : Type} (h : List (OItem π)) :
    (ReOrder h).1 = (drainItems lessO h).length := rfl

theorem ReOrder_heapInv {π : Type} (h : List (OItem π)) :
    heapInv lessO (ReOrder h).2 := by
  rw [ReOrder_snd]
  exact foldl_Push_heapInv lessO_asymm lessO_letrans _ _ (by simp [NewHeapO])
    NewHeapO_heapInv

theorem ReOrder_length {π : Type} (h : List (OItem π)) :
    (ReOrder h).2.length = Len h + 1 := by
  rw [ReOrder_snd, foldl_Push_length, renumber_length, length_drainItems]
  simp [NewHeapO]
  omega

theorem ReOrder_drain {π : Type} (h : List (OItem π)) (hinv : heapInv lessO h) :
    drainItems lessO (ReOrder h).2 = renumber 0 (drainItems lessO h) := by
  rw [ReOrder_snd]
  refine drain_rebuild _ (renumber_pairwise 0 _ ?_)
  exact (drainItems_sorted lessO_asymm lessO_letrans h hinv).imp
    (fun hab => lessO_priority_mono hab)

/-! ### Enqueue and Dequeue, unfolded per branch -/

theorem Enqueue_not_max {π : Type} (q : Queue π) (d : Option π) (p : Int)
    (hc : q.count ≠ maxUint64) :
    Enqueue q d p =
      { heap := Push lessO q.heap (⟨p, d, q.count + 1⟩ : OItem π),
        count := q.count + 1 } := by
  simp [Enqueue, hc]

theorem Enqueue_max {π : Type} (q : Queue π) (d : Option π) (p : Int)
    (hc : q.count = maxUint64) :
    Enqueue q d p =
      { heap := Push lessO (ReOrder q.heap).2
          (⟨p, d, (ReOrder q.heap).1 + 1⟩ : OItem π),
        count := (ReOrder q.heap).1 + 1 } := by
  simp [Enqueue, hc]

theorem Enqueue_heap_length {π : Type} (q : Queue π) (d : Option π) (p : Int)
    (hq : 1 ≤ q.heap.length) :
    (Enqueue q d p).heap.length = q.heap.length + 1 := by
  by_cases hc : q.count = maxUint64
  · rw [Enqueue_max q d p hc]
    show (Push lessO (ReOrder q.heap).2 _).length = _
    rw [length_Push, ReOrder_length]
    simp only [Len]
    omega
  · rw [Enqueue_not_max q d p hc]
    show (Push lessO q.heap _).length = _
    rw [length_Push]

theorem Enqueue_heapInv {π : Type} (q : Queue π) (d : Option π) (p : Int)
    (hq : 1 ≤ q.heap.length) (hinv : heapInv lessO q.heap) :
    heapInv lessO (Enqueue q d p).heap := by
  by_cases hc : q.count = maxUint64
  · rw [Enqueue_max q d p hc]
    show heapInv lessO (Push lessO (ReOrder q.heap).2 _)
    refine Push_heapInv lessO_asymm lessO_letrans _ _ ?_ (ReOrder_heapInv q.heap)
    rw [ReOrder_length]
    omega
  · rw [Enqueue_not_max q d p hc]
    exact Push_heapInv lessO_asymm lessO_letrans _ _ hq hinv

theorem Dequeue_of_empty {π : Type} (q : Queue π) (he : Empty q.heap = true) :
    Dequeue q = ((none, some DeqError.popEmptyQueue), q) := by
  rw [Dequeue, Pop_empty lessO q.heap he]

theorem Dequeue_heap {π : Type} (q : Queue π) :
    (Dequeue q).2.heap = (Pop lessO q.heap).2 := by
  rcases hp : Pop lessO q.heap with ⟨o, h2⟩
  cases o <;> simp [Dequeue, hp]

theorem Dequeue_err_iff {π : Type} (q : Queue π) :
    (Dequeue q).1.2 = none ↔ Empty q.heap = false := by
  by_cases he : Empty q.heap = true
  · rw [Dequeue_of_empty q he]
    simp [he]
  · have hEf := Empty_false_of_not he
    have hl2 := (Empty_eq_false_iff q.heap).mp hEf
    have hps : Pop lessO q.heap = (some q.heap[1], (Pop lessO q.heap).2) := by
      rw [Prod.ext_iff]
      exact ⟨Pop_isSome lessO q.heap hl2, rfl⟩
    rw [Dequeue, hps]
    simp [hEf]

theorem Dequeue_heapInv {π : Type} (q : Queue π) (hinv : heapInv lessO q.heap) :
    heapInv lessO (Dequeue q).2.heap := by
  rw [Dequeue_heap]
  exact Pop_heapInv lessO_asymm lessO_letrans _ hinv

theorem Pop_length_all (lt : α → α → Bool) (h : List α) (hq : 1 ≤ h.length) :
    1 ≤ (Pop lt h).2.length ∧
      (Pop lt h).2.length = (if Empty h = true then h.length else h.length - 1) := by
  by_cases he : Empty h = true
  · rw [Pop_empty lt h he, if_pos he]
    exact ⟨hq, rfl⟩
  · have hEf := Empty_false_of_not he
    have hl2 := (Empty_eq_false_iff h).mp hEf
    rw [length_Pop lt h hl2, if_neg he]
    omega

theorem Pop_getElem_zero_all (lt : α → α → Bool) (h : List α) :
    (Pop lt h).2[0]? = h[0]? := by
  by_cases he : Empty h = true
  · rw [Pop_empty lt h he]
  · have hEf := Empty_false_of_not he
    exact Pop_getElem_zero lt h ((Empty_eq_false_iff h).mp hEf)

/-! ### A run of enqueues with one fixed priority -/

theorem enqueueAll_const {π : Type} (P : Int) :
    ∀ (ps : List (Option π)) (q : Queue π), q.count + ps.length ≤ maxUint64 →
      enqueueAll q (ps.map (fun d => (d, P))) =
        { heap := (mkItems P q.count ps).foldl (Push lessO) q.heap,
          count := q.count + ps.length } := by
  intro ps
  induction ps with
  | nil =>
    intro q hbound
    simp [enqueueAll, mkItems]
  | cons d t ih =>
    intro q hbound
    simp only [List.length_cons] at hbound
    have hc : q.count ≠ maxUint64 := by
      unfold maxUint64 at *
      omega
    have hstep : enqueueAll q ((d :: t).map (fun x => (x, P))) =
        enqueueAll
          { heap := Push lessO q.heap (⟨P, d, q.count + 1⟩ : OItem π),
            count := q.count + 1 }
          (t.map (fun x => (x, P))) := by
      simp only [List.map_cons, enqueueAll, List.foldl_cons]
      rw [show Enqueue q (d, P).1 (d, P).2 = Enqueue q d P from rfl,
        Enqueue_not_max q d P hc]
    rw [hstep, ih _ (by show q.count + 1 + t.length ≤ maxUint64; omega)]
    rw [Queue.mk.injEq]
    constructor
    · rw [mkItems]
      simp only [List.foldl_cons]
    · simp only [List.length_cons]
      omega

/-! ### Interleaved operation traces -/

theorem runH_aux {π : Type} :
    ∀ (ops : List (HOp π)) (h : List (Item π)), 1 ≤ h.length → heapInv lessT h →
      1 ≤ (ops.foldl stepH h).length ∧ heapInv lessT (ops.foldl stepH h) ∧
        (ops.foldl stepH h)[0]? = h[0]? := by
  intro ops
  induction ops with
  | nil => intro h h1 hinv; exact ⟨h1, hinv, rfl⟩
  | cons op t ih =>
    intro h h1 hinv
    rw [List.foldl_cons]
    cases op with
    | push x =>
      have hlen : 1 ≤ (Push lessT h x).length := by rw [length_Push]; omega
      have hi : heapInv lessT (Push lessT h x) :=
        Push_heapInv lessT_asymm lessT_letrans h x h1 hinv
      obtain ⟨a1, a2, a3⟩ := ih (Push lessT h x) hlen hi
      exact ⟨a1, a2, a3.trans (Push_getElem_zero lessT h x h1)⟩
    | pop =>
      have hlen : 1 ≤ (Pop lessT h).2.length := (Pop_length_all lessT h h1).1
      have hi : heapInv lessT (Pop lessT h).2 :=
        Pop_heapInv lessT_asymm lessT_letrans h hinv
      obtain ⟨a1, a2, a3⟩ := ih (Pop lessT h).2 hlen hi
      exact ⟨a1, a2, a3.trans (Pop_getElem_zero_all lessT h)⟩

theorem runH_heapInv {π : Type} (ops : List (HOp π)) : heapInv lessT (runH ops) :=
  (runH_aux ops (NewHeapT π) (by simp [NewHeapT]) NewHeapT_heapInv).2.1

theorem runH_sentinel {π : Type} (ops : List (HOp π)) :
    (runH ops)[0]? = some { Priority := 0, Data := none, CreatedAt := 0 } :=
  (runH_aux ops (NewHeapT π) (by simp [NewHeapT]) NewHeapT_heapInv).2.2

theorem runQ_aux {π : Type} :
    ∀ (ops : List (QOp π)) (acc : Queue π × Nat × Nat), 1 ≤ acc.1.heap.length →
      1 ≤ (ops.foldl stepQ acc).1.heap.length ∧
      (ops.foldl stepQ acc).1.heap.length + (ops.foldl stepQ acc).2.2 + acc.2.1 =
        acc.1.heap.length + acc.2.2 + (ops.foldl stepQ acc).2.1 := by
  intro ops
  induction ops with
  | nil => intro acc h1; rw [List.foldl_nil]; exact ⟨h1, by omega⟩
  | cons op t ih =>
    intro acc h1
    rw [List.foldl_cons]
    cases op with
    | enq d p =>
      rw [show stepQ acc (QOp.enq d p) = (Enqueue acc.1 d p, acc.2.1 + 1, acc.2.2)
        from rfl]
      have hlen1 : 1 ≤ (Enqueue acc.1 d p).heap.length := by
        rw [Enqueue_heap_length _ _ _ h1]
        omega
      obtain ⟨b1, b2⟩ := ih (Enqueue acc.1 d p, acc.2.1 + 1, acc.2.2) hlen1
      refine ⟨b1, ?_⟩
      dsimp only at b2 ⊢
      rw [Enqueue_heap_length _ _ _ h1] at b2
      omega
    | deq =>
      rw [show stepQ acc QOp.deq = ((Dequeue acc.1).2, acc.2.1,
        acc.2.2 + (if (Dequeue acc.1).1.2 = none then 1 else 0)) from rfl]
      by_cases he : Empty acc.1.heap = true
      · rw [Dequeue_of_empty acc.1 he]
        have hcond : ¬(((none, some DeqError.popEmptyQueue) :
            Option π × Option DeqError), acc.1).1.2 = none := by simp
        rw [if_neg hcond]
        obtain ⟨b1, b2⟩ := ih (acc.1, acc.2.1, acc.2.2 + 0) h1
        dsimp only at b1 b2 ⊢
        exact ⟨b1, by omega⟩
      · have hEf := Empty_false_of_not he
        have hl2 := (Empty_eq_false_iff acc.1.heap).mp hEf
        have hcond : (Dequeue acc.1).1.2 = none := (Dequeue_err_iff acc.1).mpr hEf
        rw [if_pos hcond]
        have hlen' : (Dequeue acc.1).2.heap.length = acc.1.heap.length - 1 := by
          rw [Dequeue_heap, length_Pop lessO acc.1.heap hl2]
        have hlen1 : 1 ≤ (Dequeue acc.1).2.heap.length := by omega
        obtain ⟨b1, b2⟩ := ih ((Dequeue acc.1).2, acc.2.1, acc.2.2 + 1) hlen1
        dsimp only at b1 b2 ⊢
        rw [hlen'] at b2
        exact ⟨b1, by omega⟩

/-! ### The spec-side pop coincides with the code's pop once guarded -/

theorem getLast?_Swap_root (h : List α) (hl2 : 2 ≤ h.length) :
    (Swap h 1 (Len h)).getLast? = h[1]? := by
  rw [List.getLast?_eq_getElem?, length_Swap]
  exact Swap_snd (by omega) (by simp only [Len]; omega)

theorem sc_le (lt : α → α → Bool) (h : List α) (j sc : Nat)
    (hl : ¬leftChild j > Len h)
    (hscdef : (if rightChild j > Len h then leftChild j
      else if Less lt h (leftChild j) (rightChild j) = true then leftChild j
      else rightChild j) = sc) :
    sc ≤ Len h := by
  rw [← hscdef]
  by_cases h1 : rightChild j > Len h
  · rw [if_pos h1]; omega
  · rw [if_neg h1]
    split
    · omega
    · omega

theorem siftGuarded_eq_downFuel (lt : α → α → Bool) :
    ∀ (fuel : Nat) (h : List α) (j : Nat),
      siftGuarded lt fuel h j = downFuel lt fuel h j := by
  intro fuel
  induction fuel with
  | zero => intro h j; rfl
  | succ fuel ih =>
    intro h j
    simp only [siftGuarded, downFuel]
    split
    · rfl
    · next hl =>
      generalize hscdef : (if rightChild j > Len h then leftChild j
        else if Less lt h (leftChild j) (rightChild j) = true then leftChild j
        else rightChild j) = sc
      have hscn := sc_le lt h j sc hl hscdef
      by_cases hb : Less lt h sc j = true
      · rw [if_pos hb, if_pos ⟨hscn, hb⟩]
        exact ih _ _
      · rw [if_neg hb, if_neg (fun hx => hb hx.2)]

theorem popSpec_eq_Pop (lt : α → α → Bool) (h : List α) :
    popSpec lt h = Pop lt h := by
  by_cases he : Empty h = true
  · simp [popSpec, Pop, he]
  · have hEf := Empty_false_of_not he
    have hl2 := (Empty_eq_false_iff h).mp hEf
    simp only [popSpec, Pop, hEf, Bool.false_eq_true, if_false]
    rw [Prod.mk.injEq]
    constructor
    · exact (getLast?_Swap_root h hl2).symm
    · rw [siftGuarded_eq_downFuel]
      rfl

/-! ### Remaining small bridges -/

theorem enqueueAll_inv {π : Type} :
    ∀ (xs : List (Option π × Int)) (q : Queue π),
      1 ≤ q.heap.length → heapInv lessO q.heap →
      1 ≤ (enqueueAll q xs).heap.length ∧ heapInv lessO (enqueueAll q xs).heap := by
  intro xs
  induction xs with
  | nil => intro q h1 hinv; exact ⟨h1, hinv⟩
  | cons x t ih =>
    intro q h1 hinv
    have hstep : enqueueAll q (x :: t) = enqueueAll (Enqueue q x.1 x.2) t := by
      simp [enqueueAll]
    rw [hstep]
    exact ih _ (by rw [Enqueue_heap_length _ _ _ h1]; omega)
      (Enqueue_heapInv _ _ _ h1 hinv)

theorem Pop_fst_if (lt : α → α → Bool) (h : List α) :
    (Pop lt h).1 = if Empty h = true then none else h[1]? := by
  by_cases he : Empty h = true
  · rw [Pop_empty lt h he, if_pos he]
  · rw [if_neg he]
    exact Pop_fst lt h ((Empty_eq_false_iff h).mp (Empty_false_of_not he))

/-! ### The claims -/

/-- C1: for every sequence of `Enqueue` calls followed by draining the queue
with successful `Dequeue` calls until empty, the priorities of the dequeued
items form a non-decreasing sequence.  The first conjunct states it for the
sequence of items the heap hands out while draining; the second identifies
the payloads successive successful `Dequeue` calls return with the payloads
of exactly those items. -/
theorem claim_C1_priority_ascending_drain {π : Type} :
    (∀ xs : List (Option π × Int),
      List.Pairwise (fun a b : Int => a ≤ b)
        ((drainItems lessO (enqueueAll (NewQueue π) xs).heap).map OItem.Priority)) ∧
    (∀ (fuel : Nat) (q : Queue π),
      dequeueDrain fuel q = (drainFuel lessO fuel q.heap).map OItem.Data) := by
  constructor
  · intro xs
    obtain ⟨h1, hinv⟩ := enqueueAll_inv xs (NewQueue π) (by simp [NewQueue, NewHeapO])
      NewHeapO_heapInv
    exact List.Pairwise.map OItem.Priority (fun a b hab => lessO_priority_mono hab)
      (drainItems_sorted lessO_asymm lessO_letrans _ hinv)
  · exact dequeueDrain_eq

/-- C2: enqueuing any list of payloads with one identical priority into a
fresh queue and draining it returns the payloads in exact enqueue order, as
long as the run is short enough that no sequence-counter renumbering occurs
(the counter starts at 0, so no enqueue sees `maxUint64`). -/
theorem claim_C2_stable_tie_break {π : Type} :
    ∀ (ps : List (Option π)) (P : Int), ps.length ≤ maxUint64 →
      dequeueDrain (Queue.Len (enqueueAll (NewQueue π) (ps.map (fun d => (d, P)))))
        (enqueueAll (NewQueue π) (ps.map (fun d => (d, P)))) = ps := by
  intro ps P hlen
  rw [enqueueAll_const P ps (NewQueue π) (by simp [NewQueue]; omega), dequeueDrain_eq]
  show (drainFuel lessO
      (Len ((mkItems P (NewQueue π).count ps).foldl (Push lessO) (NewQueue π).heap))
      ((mkItems P (NewQueue π).count ps).foldl (Push lessO) (NewQueue π).heap)).map
      OItem.Data = ps
  rw [show (NewQueue π).count = 0 from rfl, show (NewQueue π).heap = NewHeapO π from rfl]
  rw [show drainFuel lessO
      (Len ((mkItems P 0 ps).foldl (Push lessO) (NewHeapO π)))
      ((mkItems P 0 ps).foldl (Push lessO) (NewHeapO π)) =
    drainItems lessO ((mkItems P 0 ps).foldl (Push lessO) (NewHeapO π)) from rfl]
  rw [drain_rebuild _ (mkItems_pairwise P _ _)]
  exact mkItems_map_data P _ ps

/-- C3: after every sequence of interleaved heap pushes and pops starting
from `NewHeap`, the heap-order invariant holds: no element at a non-root
index `i` (with `2 ≤ i ≤ Len`) compares strictly less than the element at
`parent i`, i.e. the parent precedes-or-ties the child under `Less`. -/
theorem claim_C3_heap_order_invariant {π : Type} :
    ∀ (ops : List (HOp π)) (i : Nat), 2 ≤ i → i ≤ Len (runH ops) →
      Less lessT (runH ops) i (parent i) = false := by
  intro ops i h2 hle
  have h1 : 1 ≤ (runH ops).length :=
    (runH_aux ops (NewHeapT π) (by simp [NewHeapT]) NewHeapT_heapInv).1
  refine runH_heapInv ops i ?_ h2
  simp only [Len] at hle
  omega

/-- C3 witness: the invariant checked at index 2 after a concrete push/pop
trace. -/
theorem claim_C3_heap_order_invariant_check :
    Less lessT (runH [HOp.push (⟨5, some 1, 0⟩ : Item Nat), HOp.push ⟨3, some 2, 1⟩,
      HOp.push ⟨4, some 3, 2⟩, HOp.pop, HOp.push ⟨1, some 4, 3⟩])
      2 (parent 2) = false :=
  claim_C3_heap_order_invariant _ 2 (by decide) (by decide)

/-- C4 counterexample: a concrete valid non-empty heap on which `Pop` does
not perform the claim's literal steps: sifting by unconditionally "swapping
with the smaller child" until no child is left yields a different array than
the code's `down`, which stops as soon as the smaller child is not strictly
less than the sifted node. -/
theorem claim_C4_pop_literal_counterexample :
    heapInv lessT ([⟨0, none, 0⟩, ⟨1, some 1, 0⟩, ⟨3, some 2, 0⟩,
        ⟨2, some 3, 0⟩] : List (Item Nat)) ∧
    Empty ([⟨0, none, 0⟩, ⟨1, some 1, 0⟩, ⟨3, some 2, 0⟩,
        ⟨2, some 3, 0⟩] : List (Item Nat)) = false ∧
    popLiteral lessT ([⟨0, none, 0⟩, ⟨1, some 1, 0⟩, ⟨3, some 2, 0⟩,
        ⟨2, some 3, 0⟩] : List (Item Nat)) ≠
      Pop lessT [⟨0, none, 0⟩, ⟨1, some 1, 0⟩, ⟨3, some 2, 0⟩, ⟨2, some 3, 0⟩] := by
  refine ⟨by decide, by decide, by decide⟩

/-- C4 (amended): `Pop` on a non-empty heap swaps the root with the last
element, removes the last element (the old root), sifts the new root down --
swapping with the smaller child only while that child compares strictly less
than the sifted node, using the only child if one exists and stopping if
none -- and returns the original root, which under the heap invariant is a
minimum of the stored items. -/
theorem claim_C4_pop_refinement {π : Type} :
    (∀ h : List (Item π), popSpec lessT h = Pop lessT h) ∧
    (∀ h : List (Item π), heapInv lessT h → Empty h = false →
      (Pop lessT h).1 = h[1]? ∧
      ∀ root, (Pop lessT h).1 = some root →
        ∀ x ∈ h.tail, lessT x root = false) := by
  constructor
  · intro h
    exact popSpec_eq_Pop lessT h
  · intro h hinv he
    have hl2 : 2 ≤ h.length := (Empty_eq_false_iff h).mp he
    refine ⟨Pop_fst lessT h hl2, ?_⟩
    intro root hroot x hx
    have hr := Pop_isSome lessT h hl2
    rw [hr] at hroot
    have : root = h[1] := by
      injection hroot.symm
    rw [this]
    exact root_min lessT_asymm lessT_letrans h hinv hl2 x hx

/-- C4 witness: the amended pop contract evaluated on a concrete heap. -/
theorem claim_C4_pop_refinement_check :
    popSpec lessT ([⟨0, none, 0⟩, ⟨2, some 7, 0⟩, ⟨5, some 8, 0⟩] : List (Item Nat)) =
      Pop lessT [⟨0, none, 0⟩, ⟨2, some 7, 0⟩, ⟨5, some 8, 0⟩] ∧
    (Pop lessT ([⟨0, none, 0⟩, ⟨2, some 7, 0⟩, ⟨5, some 8, 0⟩] : List (Item Nat))).1 =
      [⟨0, none, 0⟩, ⟨2, some 7, 0⟩, (⟨5, some 8, 0⟩ : Item Nat)][1]? :=
  ⟨claim_C4_pop_refinement.1 _,
    (claim_C4_pop_refinement.2 _ (by decide) (by decide)).1⟩

/-- C5: `Dequeue` on an empty queue -- in particular on a newly constructed
one -- returns the `EmptyQueue` error value with a `nil` payload instead of
crashing; at the heap layer `Pop` of an empty heap returns the explicit
"no item" result; and a newly constructed queue is empty with length 0. -/
theorem claim_C5_empty_queue_signaling {π : Type} :
    (∀ q : Queue π, Queue.Empty q = true →
      (Dequeue q).1 = (none, some DeqError.popEmptyQueue)) ∧
    (∀ h : List (Item π), Empty h = true → (Pop lessT h).1 = none) ∧
    Queue.Empty (NewQueue π) = true ∧ Queue.Len (NewQueue π) = 0 := by
  refine ⟨?_, ?_, rfl, rfl⟩
  · intro q he
    rw [Dequeue_of_empty q he]
  · intro h he
    rw [Pop_empty lessT h he]

/-- C5 witness: the empty-queue signals on a freshly constructed queue. -/
theorem claim_C5_empty_queue_signaling_check :
    (Dequeue (NewQueue Nat)).1 = (none, some DeqError.popEmptyQueue) ∧
    (Pop lessT (NewHeapT Nat)).1 = none :=
  ⟨claim_C5_empty_queue_signaling.1 (NewQueue Nat) (by decide),
    claim_C5_empty_queue_signaling.2.1 (NewHeapT Nat) (by decide)⟩

/-- C6: after any sequence of `E` enqueues and `D` successful dequeues on one
queue (a dequeue of an empty queue fails and is not counted), `Len` returns
exactly `E - D`; in particular `D` never exceeds `E`. -/
theorem claim_C6_count_consistency {π : Type} :
    ∀ ops : List (QOp π),
      Queue.Len (runQ ops).1 = (runQ ops).2.1 - (runQ ops).2.2 ∧
      (runQ ops).2.2 ≤ (runQ ops).2.1 := by
  intro ops
  obtain ⟨b1, b2⟩ := runQ_aux ops (NewQueue π, 0, 0) (by simp [NewQueue, NewHeapO])
  rw [show runQ ops = ops.foldl stepQ (NewQueue π, 0, 0) from rfl]
  dsimp only at b2
  rw [show (NewQueue π).heap.length = 1 from rfl] at b2
  rw [show Queue.Len (ops.foldl stepQ (NewQueue π, 0, 0)).1 =
    (ops.foldl stepQ (NewQueue π, 0, 0)).1.heap.length - 1 from rfl]
  omega

/-- C7: when the sequence counter equals `math.MaxUint64` at the start of an
`Enqueue`, the queue renumbers first: `ReOrder` reassigns sequence numbers
0..n-1 to the queued items in dequeue order, the enqueue then continues from
the renewed counter, and the renumbering preserves the relative dequeue
order (priorities and payloads) of all items queued at that moment. -/
theorem claim_C7_overflow_renumbering {π : Type} :
    ∀ (q : Queue π) (d : Option π) (p : Int) (h : List (OItem π)),
      heapInv lessO h →
      (q.count = maxUint64 →
        Enqueue q d p = Queue.mk
          (Push lessO (ReOrder q.heap).2 (⟨p, d, (ReOrder q.heap).1 + 1⟩ : OItem π))
          ((ReOrder q.heap).1 + 1)) ∧
      (drainItems lessO (ReOrder h).2).map OItem.Order = List.range (Len h) ∧
      (drainItems lessO (ReOrder h).2).map (fun x => (x.Priority, x.Data)) =
        (drainItems lessO h).map (fun x => (x.Priority, x.Data)) := by
  intro q d p h hinv
  refine ⟨fun hc => Enqueue_max q d p hc, ?_, ?_⟩
  · rw [ReOrder_drain h hinv, renumber_map_order, length_drainItems,
      List.range_eq_range']
  · rw [ReOrder_drain h hinv, renumber_map_pd]

/-- C7 witness: the renumbering pass on a concrete two-item heap. -/
theorem claim_C7_overflow_renumbering_check :
    (drainItems lessO (ReOrder ([⟨0, none, 0⟩, ⟨1, some 10, 4⟩,
        ⟨2, some 20, 9⟩] : List (OItem Nat))).2).map OItem.Order =
      List.range (Len ([⟨0, none, 0⟩, ⟨1, some 10, 4⟩,
        ⟨2, some 20, 9⟩] : List (OItem Nat))) :=
  (claim_C7_overflow_renumbering (NewQueue Nat) none 0
    ([⟨0, none, 0⟩, ⟨1, some 10, 4⟩, ⟨2, some 20, 9⟩] : List (OItem Nat))
    (by decide)).2.1

/-- C9: the heap array is 1-indexed with the sentinel at index 0:
`parent(k) = k/2`, `left(k) = 2k`, `right(k) = 2k+1`; along every push/pop
trace from `NewHeap` the sentinel placed by the constructor stays unchanged
at index 0, `Pop` only ever returns the element at index 1 (never the
sentinel), and `Len` reports the array length minus one. -/
theorem claim_C9_sentinel_frame {π : Type} :
    ∀ ops : List (HOp π),
      (runH ops)[0]? = some { Priority := 0, Data := none, CreatedAt := 0 } ∧
      Len (runH ops) = (runH ops).length - 1 ∧
      (∀ h : List (Item π), (Pop lessT h).1 = if Empty h = true then none else h[1]?) ∧
      (∀ k : Nat, parent k = k / 2 ∧ leftChild k = 2 * k ∧ rightChild k = 2 * k + 1) := by
  intro ops
  refine ⟨runH_sentinel ops, rfl, fun h => Pop_fst_if lessT h, fun k => ⟨rfl, ?_, ?_⟩⟩
  · rw [leftChild_def]
    omega
  · rw [rightChild_def]
    omega

/-- C10: `Dequeue` on an empty queue returns a `nil` payload together with
the error and leaves the queue completely unchanged (same heap array, length
and counter); the heap-layer `Pop` on an empty heap mutates nothing. -/
theorem claim_C10_dequeue_empty_no_mutation {π : Type} :
    (∀ q : Queue π, Queue.Empty q = true →
      Dequeue q = ((none, some DeqError.popEmptyQueue), q) ∧
      (Dequeue q).2.heap = q.heap ∧ (Dequeue q).2.count = q.count ∧
      Pop lessO q.heap = (none, q.heap)) ∧
    (∀ h : List (Item π), Empty h = true → Pop lessT h = (none, h)) := by
  constructor
  · intro q he
    have h1 := Dequeue_of_empty q he
    refine ⟨h1, by rw [h1], by rw [h1], Pop_empty lessO q.heap he⟩
  · intro h he
    exact Pop_empty lessT h he

/-- C10 witness: dequeueing a fresh empty queue changes nothing. -/
theorem claim_C10_dequeue_empty_no_mutation_check :
    Dequeue (NewQueue Nat) = ((none, some DeqError.popEmptyQueue), NewQueue Nat) ∧
    Pop lessT (NewHeapT Nat) = (none, NewHeapT Nat) :=
  ⟨(claim_C10_dequeue_empty_no_mutation.1 (NewQueue Nat) (by decide)).1,
    claim_C10_dequeue_empty_no_mutation.2 (NewHeapT Nat) (by decide)⟩

/-- C2 witness: three equal-priority payloads drain in enqueue order. -/
theorem claim_C2_stable_tie_break_check :
    dequeueDrain (Queue.Len (enqueueAll (NewQueue Nat)
        ([some 10, some 20, some 30].map (fun d => (d, 5)))))
      (enqueueAll (NewQueue Nat) ([some 10, some 20, some 30].map (fun d => (d, 5)))) =
      [some 10, some 20, some 30] :=
  claim_C2_stable_tie_break [some 10, some 20, some 30] 5 (by decide)

end RequestPq
